import Mathlib

/-!
Verification development for the ImmuDB-UI repository.

The repository has two source files:
  * `src/Operations/Ops.py` — the `ImmuDBReader` class with the scan
    operations `get_all_transactions`, `get_by_prefix`, `get_by_suffix`
    and the state query `get_merkle_root`;
  * `src/app.py` — the dashboard, whose only data logic is
    `get_transactions_stats`.

This file gives a shallow embedding of those operations and proves the
frozen claims about them.  Byte strings are `List Nat` (each element a
byte value), decoded text is `List Char` (one element per Python `str`
code point).  The remote store is modelled as a scan function (from the
requested key prefix to either a failure or a list of entries) together
with a point-lookup function, matching the `self.client.scan` /
`self.client.get` calls in the source.
-/

/-- Byte strings, as produced by the store: one `Nat` per byte. -/
abbrev Bytes := List Nat

/-- Decoded text, one `Char` per Python `str` code point. -/
abbrev Str := List Char

/-- The Unicode replacement character U+FFFD, produced by Python
`bytes.decode(..., errors="replace")` for each maximal invalid subpart. -/
def repl : Char := Char.ofNat 0xFFFD

/-- Whether a byte is a valid UTF-8 continuation byte (0x80–0xBF). -/
def contOK (b : Nat) : Bool := 0x80 ≤ b && b ≤ 0xBF

/-- Analyze one UTF-8 sequence starting at byte `b` with remaining input `r`.
Returns `(some c, extra)` when a valid sequence encoding the scalar `c` starts
here and consumes `extra` further bytes of `r`, and `(none, extra)` when the
sequence is invalid, where `extra` is the number of further bytes belonging to
the maximal valid subpart (CPython consumes the maximal subpart and emits one
replacement character, per the Unicode recommendation). -/
def utf8Analyze1 (b : Nat) (r : Bytes) : Option Char × Nat :=
  if b < 0x80 then (some (Char.ofNat b), 0)
  else if b < 0xC2 then (none, 0)
  else if b < 0xE0 then
    match r with
    | b1 :: _ => if contOK b1 then (some (Char.ofNat ((b % 32) * 64 + b1 % 64)), 1) else (none, 0)
    | [] => (none, 0)
  else if b < 0xF0 then
    let lo := if b = 0xE0 then 0xA0 else 0x80
    let hi := if b = 0xED then 0x9F else 0xBF
    match r with
    | b1 :: r1 =>
      if lo ≤ b1 && b1 ≤ hi then
        match r1 with
        | b2 :: _ =>
          if contOK b2 then
            (some (Char.ofNat ((b % 16) * 4096 + (b1 % 64) * 64 + b2 % 64)), 2)
          else (none, 1)
        | [] => (none, 1)
      else (none, 0)
    | [] => (none, 0)
  else if b < 0xF5 then
    let lo := if b = 0xF0 then 0x90 else 0x80
    let hi := if b = 0xF4 then 0x8F else 0xBF
    match r with
    | b1 :: r1 =>
      if lo ≤ b1 && b1 ≤ hi then
        match r1 with
        | b2 :: r2 =>
          if contOK b2 then
            match r2 with
            | b3 :: _ =>
              if contOK b3 then
                (some (Char.ofNat ((b % 8) * 262144 + (b1 % 64) * 4096 + (b2 % 64) * 64 + b3 % 64)), 3)
              else (none, 2)
            | [] => (none, 2)
          else (none, 1)
        | [] => (none, 1)
      else (none, 0)
    | [] => (none, 0)
  else (none, 0)

/-- Fuelled worker for `pyDecodeReplace`; the fuel is the input length, which
is enough because every step consumes at least one byte. -/
def pyDecodeReplaceAux : Nat → Bytes → Str
  | _, [] => []
  | 0, _ :: _ => []
  | fuel + 1, b :: r =>
    match utf8Analyze1 b r with
    | (some c, extra) => c :: pyDecodeReplaceAux fuel (r.drop extra)
    | (none, extra) => repl :: pyDecodeReplaceAux fuel (r.drop extra)

/-- Embeds Python `key_bytes.decode("utf-8", errors="replace")`: total on
byte strings, replacing each maximal invalid subpart with U+FFFD. -/
def pyDecodeReplace (l : Bytes) : Str := pyDecodeReplaceAux l.length l

/-- Fuelled worker for `validUtf8`. -/
def validUtf8Aux : Nat → Bytes → Bool
  | _, [] => true
  | 0, _ :: _ => false
  | fuel + 1, b :: r =>
    match utf8Analyze1 b r with
    | (some _, extra) => validUtf8Aux fuel (r.drop extra)
    | (none, _) => false

/-- Whether a byte string is valid UTF-8, i.e. whether Python strict
decoding would succeed on it. -/
def validUtf8 (l : Bytes) : Bool := validUtf8Aux l.length l

/-- UTF-8 encoding of one scalar value, as Python `str.encode("utf-8")`
does per character. -/
def encodeChar (c : Char) : Bytes :=
  let n := c.toNat
  if n < 0x80 then [n]
  else if n < 0x800 then [0xC0 + n / 64, 0x80 + n % 64]
  else if n < 0x10000 then [0xE0 + n / 4096, 0x80 + n / 64 % 64, 0x80 + n % 64]
  else [0xF0 + n / 262144, 0x80 + n / 4096 % 64, 0x80 + n / 64 % 64, 0x80 + n % 64]

/-- Embeds Python `s.encode("utf-8")`. -/
def utf8Encode (s : Str) : Bytes := (s.map encodeChar).flatten

/-- The standard base64 alphabet `A-Z a-z 0-9 + /`, built from the
character codes (65 is `A`, 97 is `a`, 48 is `0`). -/
def b64Chars : Str :=
  (List.range 26).map (fun i => Char.ofNat (65 + i)) ++
    (List.range 26).map (fun i => Char.ofNat (97 + i)) ++
    (List.range 10).map (fun i => Char.ofNat (48 + i)) ++ ['+', '/']

/-- The base64 digit for a 6-bit value. -/
def b64Chr (n : Nat) : Char := b64Chars.getD n 'A'

/-- Embeds Python `base64.b64encode(v).decode("utf-8")`: standard base64
with `=` padding. -/
def b64encode : Bytes → Str
  | [] => []
  | [a] => [b64Chr (a / 4), b64Chr (a % 4 * 16), '=', '=']
  | [a, b] => [b64Chr (a / 4), b64Chr (a % 4 * 16 + b / 16), b64Chr (b % 16 * 4), '=']
  | a :: b :: c :: rest =>
    b64Chr (a / 4) :: b64Chr (a % 4 * 16 + b / 16) ::
      b64Chr (b % 16 * 4 + c / 64) :: b64Chr (c % 64) :: b64encode rest

/-- The 6-bit value of a base64 digit, if it is one. -/
def b64Idx (c : Char) : Option Nat := b64Chars.findIdx? (fun x => x = c)

/-- Base64 decoding (standard alphabet, `=` padding); `none` when the
input is not a well-formed base64 string. -/
def b64decodeOpt : Str → Option Bytes
  | [] => some []
  | c1 :: c2 :: c3 :: c4 :: rest =>
    match b64Idx c1, b64Idx c2 with
    | some i1, some i2 =>
      if c3 = '=' then
        if c4 = '=' then
          if rest = [] then some [i1 * 4 + i2 / 16] else none
        else none
      else
        match b64Idx c3 with
        | some i3 =>
          if c4 = '=' then
            if rest = [] then some [i1 * 4 + i2 / 16, i2 % 16 * 16 + i3 / 4] else none
          else
            match b64Idx c4, b64decodeOpt rest with
            | some i4, some bs =>
              some ((i1 * 4 + i2 / 16) :: (i2 % 16 * 16 + i3 / 4) :: (i3 % 4 * 64 + i4) :: bs)
            | _, _ => none
        | none => none
    | _, _ => none
  | _ => none

/-- One lowercase hexadecimal digit: `0-9` for values below ten, then
`a-f` (`a` has code 97 = 87 + 10). -/
def hexDigit (n : Nat) : Char :=
  if n < 10 then Char.ofNat (48 + n) else Char.ofNat (87 + n)

/-- Embeds Python `bytes.hex()`. -/
def bytesToHex (l : Bytes) : Str := (l.map (fun b => [hexDigit (b / 16), hexDigit (b % 16)])).flatten

/-!
## The Reader (`src/Operations/Ops.py`)
-/

/-- The result of the point lookup `self.client.get(key_bytes)` used for
bare-key entries: the response object may expose the payload as `.value`,
as `.payload`, or as neither (the code then uses `b""`), or the call may
raise (`fault`). -/
inductive GetResult where
  | withValue (v : Bytes)
  | withPayload (v : Bytes)
  | noField
  | fault
  deriving DecidableEq

/-- One entry of a scan result, in any of the heterogeneous shapes the
scan loops recognize: a `(key, value)` tuple of length 2, an object with
`.key` and `.value` attributes, a bare key (bytes) needing a follow-up
point lookup, or an unrecognized shape. -/
inductive Entry where
  | tup (k v : Bytes)
  | obj (k v : Bytes)
  | raw (k : Bytes)
  | unknown
  deriving DecidableEq

/-- The remote store, as seen through the client calls the Reader makes:
`scan p` embeds `self.client.scan(key=b"", prefix=p, limit=0, desc=False)`
(`Except.error` when that call raises) and `lookup` embeds
`self.client.get`. -/
structure Store where
  scan : Bytes → Except String (List Entry)
  lookup : Bytes → GetResult

/-- The per-entry normalization common to the three scan loops: a tuple or
key/value object yields its pair directly; a bare key triggers the point
lookup, whose payload is read from `.value`, then `.payload`, else `b""`;
an unrecognized shape yields `some none` (the loop does `continue`); a
faulting lookup yields `none` (the exception propagates to the outer
`except`, aborting the loop). -/
def normalizeEntry (lookup : Bytes → GetResult) : Entry → Option (Option (Bytes × Bytes))
  | .tup k v => some (some (k, v))
  | .obj k v => some (some (k, v))
  | .raw k =>
    match lookup k with
    | .withValue v => some (some (k, v))
    | .withPayload v => some (some (k, v))
    | .noField => some (some (k, []))
    | .fault => none
  | .unknown => some none

/-- Embeds the value-decoding step
`value_str = value_bytes.decode("utf-8", errors="replace")` inside
`try/except`.  Decoding with `errors="replace"` is total on byte strings,
so the `except` branch (`base64.b64encode(value_bytes)`) is unreachable;
`b64encode` above is what that dead branch would compute. -/
def valueToStr (v : Bytes) : Str := pyDecodeReplace v

/-- Embeds the Python dict assignment `result[key_str] = value_str`:
an existing key keeps its position and gets the new value, a new key is
appended (dicts preserve insertion order). -/
def dictInsert : List (Str × Str) → Str → Str → List (Str × Str)
  | [], k, v => [(k, v)]
  | q :: rest, k, v => if q.1 = k then (k, v) :: rest else q :: dictInsert rest k v

/-- The scan loop shared (textually repeated) by the three scan
operations, parameterized by the filter `keep` applied to the raw key
bytes and the decoded key (`get_all_transactions` keeps everything,
`get_by_prefix` re-checks `key_str.startswith(prefix)`, `get_by_suffix`
checks `key_bytes.endswith(sfx)`).  A `normalize` fault aborts the loop
and the accumulated entries are returned, because the exception is caught
by the outer `except` after which the partially filled `result` dict is
returned. -/
def scanLoopGen (lookup : Bytes → GetResult) (keep : Bytes → Str → Bool) :
    List Entry → List (Str × Str) → List (Str × Str)
  | [], acc => acc
  | e :: rest, acc =>
    match normalizeEntry lookup e with
    | none => acc
    | some none => scanLoopGen lookup keep rest acc
    | some (some (kb, vb)) =>
      if keep kb (pyDecodeReplace kb) then
        scanLoopGen lookup keep rest (dictInsert acc (pyDecodeReplace kb) (valueToStr vb))
      else scanLoopGen lookup keep rest acc

/-- Embeds `ImmuDBReader.get_all_transactions`: unrestricted scan, all
entries kept; a failure of the scan call itself yields the empty dict. -/
def get_all_transactions (s : Store) : List (Str × Str) :=
  match s.scan [] with
  | .error _ => []
  | .ok entries => scanLoopGen s.lookup (fun _ _ => true) entries []

/-- Embeds `ImmuDBReader.get_by_prefix`: scan restricted to
`p.encode("utf-8")`, and each decoded key re-checked with
`key_str.startswith(prefix)`. -/
def get_by_prefix (s : Store) (p : Str) : List (Str × Str) :=
  match s.scan (utf8Encode p) with
  | .error _ => []
  | .ok entries => scanLoopGen s.lookup (fun _ ks => p.isPrefixOf ks) entries []

/-- Embeds `ImmuDBReader.get_by_suffix`: unrestricted scan, keeping the
entries whose raw key bytes end with `suffix.encode("utf-8")` (checked
before any text decoding). -/
def get_by_suffix (s : Store) (suffix : Str) : List (Str × Str) :=
  match s.scan [] with
  | .error _ => []
  | .ok entries =>
    scanLoopGen s.lookup (fun kb _ => (utf8Encode suffix).isSuffixOf kb) entries []

/-- The store state returned by `self.client.currentState()`. -/
structure ImmuState where
  txId : Nat
  txHash : Bytes

/-- The summary returned by `get_merkle_root`: both fields `None` on
failure. -/
structure StateSummary where
  txId : Option Nat
  merkleRoot : Option Str
  deriving DecidableEq

/-- Embeds `ImmuDBReader.get_merkle_root`: on success, the transaction id
and the hex digest of the transaction hash; when the state query raises,
the summary with both fields `None` is returned (the exception is caught,
not re-raised). -/
def get_merkle_root (q : Except String ImmuState) : StateSummary :=
  match q with
  | .ok st => ⟨some st.txId, some (bytesToHex st.txHash)⟩
  | .error _ => ⟨none, none⟩

/-- The effectively processed `(key, value)` byte pairs of a scan loop:
normalized pairs up to (and excluding) the first faulting entry,
unrecognized shapes skipped. -/
def normPairsAbort (lookup : Bytes → GetResult) : List Entry → List (Bytes × Bytes)
  | [] => []
  | e :: rest =>
    match normalizeEntry lookup e with
    | none => []
    | some none => normPairsAbort lookup rest
    | some (some q) => q :: normPairsAbort lookup rest

/-- The normalized pair of one entry when no fault occurs, `none` for a
skipped shape. -/
def normSome (lookup : Bytes → GetResult) (e : Entry) : Option (Bytes × Bytes) :=
  match normalizeEntry lookup e with
  | some (some q) => some q
  | _ => none

/-- Decoding a normalized byte pair to the dict entry the loops insert. -/
def decodePair (q : Bytes × Bytes) : Str × Str := (pyDecodeReplace q.1, valueToStr q.2)

/-- One fold step of a scan loop over an already-normalized pair. -/
def stepKeep (keep : Bytes → Str → Bool) (acc : List (Str × Str)) (q : Bytes × Bytes) :
    List (Str × Str) :=
  if keep q.1 (pyDecodeReplace q.1) then
    dictInsert acc (pyDecodeReplace q.1) (valueToStr q.2)
  else acc

/-- Looking a key up in the result dict. -/
def getVal (d : List (Str × Str)) (k : Str) : Option Str :=
  (d.find? (fun q => decide (q.1 = k))).map Prod.snd

/-!
## The Aggregator (`get_transactions_stats` in `src/app.py`)
-/

/-- The candidate prefixes of one key:
`key[:i] for i in range(1, min(5, len(key)))`, i.e. the prefixes of
length 1 up to `min(5, len(key)) - 1`. -/
def prefixCandidates (key : Str) : List Str :=
  (List.range' 1 (min 5 key.length - 1)).map (fun i => key.take i)

/-- Embeds the dict update
`if prefix in prefixes: prefixes[prefix] += 1 else: prefixes[prefix] = 1`:
an existing prefix keeps its position and its count grows by one, a new
prefix is appended (first-discovery order). -/
def bump : List (Str × Nat) → Str → List (Str × Nat)
  | [], p => [(p, 1)]
  | q :: rest, p => if q.1 = p then (q.1, q.2 + 1) :: rest else q :: bump rest p

/-- The prefix-frequency dict accumulated over all keys, in key order
(Python dict iteration order is insertion order). -/
def prefixCounts (transactions : List (Str × Str)) : List (Str × Nat) :=
  transactions.foldl (fun acc kv => (prefixCandidates kv.1).foldl bump acc) []

/-- Stable insertion into a list sorted by count descending: the new
element goes before the first element whose count is not larger, hence
after every earlier element with the same count. -/
def insertDesc (x : Str × Nat) : List (Str × Nat) → List (Str × Nat)
  | [] => [x]
  | y :: ys => if y.2 ≤ x.2 then x :: y :: ys else y :: insertDesc x ys

/-- Stable sort by count descending, realizing Python
`sorted(prefixes.items(), key=lambda x: x[1], reverse=True)` (Python
`sorted` is stable, and `reverse=True` preserves stability). -/
def sortDesc : List (Str × Nat) → List (Str × Nat)
  | [] => []
  | x :: xs => insertDesc x (sortDesc xs)

/-- One step of the largest-value loop: replace the current best only
when the value size strictly exceeds it
(`if value_size > largest_value["size"]`). -/
def lvStep (best : Str × Nat) (kv : Str × Str) : Str × Nat :=
  if kv.2.length > best.2 then (kv.1, kv.2.length) else best

/-- The largest-value loop, starting from `{"key": "", "size": 0}`. -/
def largestValueFold (transactions : List (Str × Str)) : Str × Nat :=
  transactions.foldl lvStep ([], 0)

/-- The statistics record returned by `get_transactions_stats`. -/
structure Stats where
  count : Nat
  avg_key_length : Rat
  avg_value_length : Rat
  largest_value : Str × Nat
  common_prefixes : List (Str × Nat)

/-- Embeds `get_transactions_stats` from `src/app.py`.  The transactions
dict is the (insertion-ordered, key-unique) association list produced by
the Reader.  `len(str(v))` on a decoded string value is its length. -/
def get_transactions_stats (transactions : List (Str × Str)) : Stats :=
  if transactions.isEmpty then
    ⟨0, 0, 0, ([], 0), []⟩
  else
    let key_lengths := transactions.map (fun kv => kv.1.length)
    let value_lengths := transactions.map (fun kv => kv.2.length)
    let common_prefixes := (sortDesc (prefixCounts transactions)).take 5
    let largest_value := largestValueFold transactions
    ⟨transactions.length,
     (key_lengths.sum : Rat) / (key_lengths.length : Rat),
     (value_lengths.sum : Rat) / (value_lengths.length : Rat),
     largest_value,
     common_prefixes⟩

/-- A two-entry store whose raw keys `EF BF BD` (the valid encoding of
U+FFFD) and `FF` (invalid UTF-8) both decode to the one-character string
U+FFFD; the prefix scan for that character keeps only the first entry. -/
def c3store : Store :=
  ⟨fun q =>
    if q = [] then
      Except.ok [Entry.tup [0xEF, 0xBF, 0xBD] [0x61], Entry.tup [0xFF] [0x62]]
    else Except.ok [Entry.tup [0xEF, 0xBF, 0xBD] [0x61]],
   fun _ => GetResult.fault⟩

/-- The two-entry store with colliding decoded keys used against the
suffix subset claim. -/
def c4store : Store :=
  ⟨fun _ => Except.ok [Entry.tup [0xEF, 0xBF, 0xBD] [0x61], Entry.tup [0xFF] [0x62]],
   fun _ => GetResult.fault⟩

/-!
## Basic evaluations

Sanity checks that the embedding computes as the Python code does on
concrete inputs, among them the worked example of the specification
(`{"block:1": "abc", "block:22": "abcdef", "log:9": "x"}`).
-/

theorem decode_evals :
    pyDecodeReplace [0xFF] = [repl] ∧
    pyDecodeReplace [0xEF, 0xBF, 0xBD] = [repl] ∧
    pyDecodeReplace [0x61, 0x62] = ['a', 'b'] ∧
    pyDecodeReplace [0xE0, 0xA0] = [repl] ∧
    validUtf8 [0xEF, 0xBF, 0xBD] = true ∧
    utf8Encode [repl] = [0xEF, 0xBF, 0xBD] ∧
    bytesToHex [0xAB, 0x01] = ['a', 'b', '0', '1'] := by decide

theorem reader_evals :
    get_all_transactions
      ⟨fun _ => Except.ok [Entry.tup [0x61] [0x62], Entry.tup [0x63] [0x64]],
       fun _ => GetResult.fault⟩ = [(['a'], ['b']), (['c'], ['d'])] ∧
    get_by_suffix
      ⟨fun _ => Except.ok [Entry.tup [0x61, 0x62] [0x63], Entry.tup [0x64] [0x65]],
       fun _ => GetResult.fault⟩ ['b'] = [(['a', 'b'], ['c'])] ∧
    get_merkle_root (Except.ok ⟨7, [0xAB]⟩) = ⟨some 7, some ['a', 'b']⟩ := by decide

theorem stats_spec_example :
    (get_transactions_stats
      [(['b', 'l', 'o', 'c', 'k', ':', '1'], ['a', 'b', 'c']),
       (['b', 'l', 'o', 'c', 'k', ':', '2', '2'], ['a', 'b', 'c', 'd', 'e', 'f']),
       (['l', 'o', 'g', ':', '9'], ['x'])]).count = 3 ∧
    (get_transactions_stats
      [(['b', 'l', 'o', 'c', 'k', ':', '1'], ['a', 'b', 'c']),
       (['b', 'l', 'o', 'c', 'k', ':', '2', '2'], ['a', 'b', 'c', 'd', 'e', 'f']),
       (['l', 'o', 'g', ':', '9'], ['x'])]).largest_value =
      (['b', 'l', 'o', 'c', 'k', ':', '2', '2'], 6) ∧
    (get_transactions_stats
      [(['a', 'b'], ['x']), (['a', 'c'], ['y']), (['b', 'd'], ['z'])]).common_prefixes =
      [(['a'], 2), (['b'], 1)] := by decide

/-!
## Dict lemmas
-/

theorem getVal_dictInsert_self (d : List (Str × Str)) (k v : Str) :
    getVal (dictInsert d k v) k = some v := by
  induction d with
  | nil => simp [dictInsert, getVal]
  | cons q rest ih =>
    by_cases h : q.1 = k
    · simp [dictInsert, h, getVal]
    · simpa [dictInsert, h, getVal] using ih

theorem getVal_dictInsert_ne (d : List (Str × Str)) (k v k₂ : Str) (h : k₂ ≠ k) :
    getVal (dictInsert d k v) k₂ = getVal d k₂ := by
  induction d with
  | nil => simp [dictInsert, getVal, Ne.symm h]
  | cons q rest ih =>
    by_cases hq : q.1 = k
    · simp only [dictInsert, if_pos hq]
      simp [getVal, Ne.symm h, hq]
    · simp only [dictInsert, if_neg hq]
      by_cases hq2 : q.1 = k₂
      · simp [getVal, hq2]
      · simpa [getVal, hq2] using ih

theorem length_dictInsert_le (d : List (Str × Str)) (k v : Str) :
    (dictInsert d k v).length ≤ d.length + 1 := by
  induction d with
  | nil => simp [dictInsert]
  | cons q rest ih =>
    by_cases h : q.1 = k
    · simp [dictInsert, h]
    · simpa [dictInsert, h] using Nat.succ_le_succ ih

theorem length_dictInsert_mem (d : List (Str × Str)) (k v : Str)
    (h : k ∈ d.map Prod.fst) : (dictInsert d k v).length = d.length := by
  induction d with
  | nil => simp at h
  | cons q rest ih =>
    by_cases hq : q.1 = k
    · simp [dictInsert, hq]
    · have hrest : k ∈ rest.map Prod.fst := by
        rcases List.mem_map.1 h with ⟨x, hx, hk⟩
        rcases List.mem_cons.1 hx with rfl | hx2
        · exact absurd hk hq
        · exact List.mem_map.2 ⟨x, hx2, hk⟩
      simpa [dictInsert, hq] using ih hrest

theorem mem_keys_of_getVal (d : List (Str × Str)) (k v : Str)
    (h : getVal d k = some v) : k ∈ d.map Prod.fst := by
  induction d with
  | nil => simp [getVal] at h
  | cons q rest ih =>
    by_cases hq : q.1 = k
    · exact List.mem_map.2 ⟨q, List.mem_cons_self _ _, hq⟩
    · rw [getVal] at h
      rw [List.find?_cons_of_neg _ (by simpa using hq)] at h
      have := ih h
      simpa using Or.inr (by simpa using this)

theorem mem_keys_dictInsert (d : List (Str × Str)) (k v k₂ : Str)
    (h : k₂ ∈ (dictInsert d k v).map Prod.fst) : k₂ = k ∨ k₂ ∈ d.map Prod.fst := by
  induction d with
  | nil =>
    simp [dictInsert] at h
    exact Or.inl h
  | cons q rest ih =>
    by_cases hq : q.1 = k
    · simp [dictInsert, hq] at h
      rcases h with h | h
      · exact Or.inl h
      · exact Or.inr (by simpa using Or.inr h)
    · simp [dictInsert, hq] at h
      rcases h with h | h
      · exact Or.inr (by simpa using Or.inl h)
      · rcases ih (by simpa using h) with h2 | h2
        · exact Or.inl h2
        · exact Or.inr (by simpa using Or.inr (by simpa using h2))

theorem dictInsert_notmem (d : List (Str × Str)) (k v : Str)
    (h : k ∉ d.map Prod.fst) : dictInsert d k v = d ++ [(k, v)] := by
  induction d with
  | nil => simp [dictInsert]
  | cons q rest ih =>
    have hq : q.1 ≠ k := fun hk => h (List.mem_map.2 ⟨q, List.mem_cons_self _ _, hk⟩)
    have hrest : k ∉ rest.map Prod.fst := fun hk => by
      rcases List.mem_map.1 hk with ⟨x, hx, hkx⟩
      exact h (List.mem_map.2 ⟨x, List.mem_cons_of_mem _ hx, hkx⟩)
    simp [dictInsert, hq, ih hrest]

/-!
## Scan-loop lemmas
-/

theorem scanLoopGen_eq_foldl (lookup : Bytes → GetResult) (keep : Bytes → Str → Bool) :
    ∀ (entries : List Entry) (acc : List (Str × Str)),
      scanLoopGen lookup keep entries acc =
        (normPairsAbort lookup entries).foldl (stepKeep keep) acc := by
  intro entries
  induction entries with
  | nil => intro acc; simp [scanLoopGen, normPairsAbort]
  | cons e rest ih =>
    intro acc
    cases hn : normalizeEntry lookup e with
    | none => simp [scanLoopGen, normPairsAbort, hn]
    | some o =>
      cases o with
      | none => simp [scanLoopGen, normPairsAbort, hn, ih]
      | some q =>
        by_cases hk : keep q.1 (pyDecodeReplace q.1)
        · simp [scanLoopGen, normPairsAbort, hn, hk, ih, stepKeep]
        · simp [scanLoopGen, normPairsAbort, hn, hk, ih, stepKeep]

theorem scanLoopGen_congr (lookup : Bytes → GetResult) (keep₁ keep₂ : Bytes → Str → Bool)
    (h : ∀ kb ks, keep₁ kb ks = keep₂ kb ks) :
    ∀ (entries : List Entry) (acc : List (Str × Str)),
      scanLoopGen lookup keep₁ entries acc = scanLoopGen lookup keep₂ entries acc := by
  intro entries
  induction entries with
  | nil => intro acc; simp [scanLoopGen]
  | cons e rest ih =>
    intro acc
    cases hn : normalizeEntry lookup e with
    | none => simp [scanLoopGen, hn]
    | some o =>
      cases o with
      | none => simp [scanLoopGen, hn, ih]
      | some q => simp [scanLoopGen, hn, h, ih]

theorem keys_scanLoopGen_prop (lookup : Bytes → GetResult) (keep : Bytes → Str → Bool)
    (P : Str → Prop) (hkeep : ∀ kb, keep kb (pyDecodeReplace kb) = true → P (pyDecodeReplace kb)) :
    ∀ (entries : List Entry) (acc : List (Str × Str)),
      (∀ k ∈ acc.map Prod.fst, P k) →
      ∀ k ∈ (scanLoopGen lookup keep entries acc).map Prod.fst, P k := by
  intro entries
  induction entries with
  | nil => intro acc hacc; simpa [scanLoopGen] using hacc
  | cons e rest ih =>
    intro acc hacc
    cases hn : normalizeEntry lookup e with
    | none => simpa [scanLoopGen, hn] using hacc
    | some o =>
      cases o with
      | none => simpa [scanLoopGen, hn] using ih acc hacc
      | some q =>
        by_cases hk : keep q.1 (pyDecodeReplace q.1)
        · have hacc2 : ∀ k ∈ (dictInsert acc (pyDecodeReplace q.1) (valueToStr q.2)).map Prod.fst,
              P k := by
            intro k hkmem
            rcases mem_keys_dictInsert _ _ _ _ hkmem with rfl | hkmem2
            · exact hkeep q.1 hk
            · exact hacc k hkmem2
          simpa [scanLoopGen, hn, hk] using ih _ hacc2
        · simpa [scanLoopGen, hn, hk] using ih acc hacc

theorem getVal_foldl_stepKeep_of_ne (keep : Bytes → Str → Bool) :
    ∀ (pairs : List (Bytes × Bytes)) (acc : List (Str × Str)) (k : Str),
      (∀ q ∈ pairs, pyDecodeReplace q.1 ≠ k) →
      getVal (pairs.foldl (stepKeep keep) acc) k = getVal acc k := by
  intro pairs
  induction pairs with
  | nil => intro acc k _; rfl
  | cons q rest ih =>
    intro acc k hne
    have hq : pyDecodeReplace q.1 ≠ k := hne q (List.mem_cons_self _ _)
    have hrest : ∀ p ∈ rest, pyDecodeReplace p.1 ≠ k :=
      fun p hp => hne p (List.mem_cons_of_mem _ hp)
    rw [List.foldl_cons, ih _ k hrest]
    by_cases hk : keep q.1 (pyDecodeReplace q.1)
    · rw [stepKeep, if_pos hk, getVal_dictInsert_ne _ _ _ _ (Ne.symm hq)]
    · rw [stepKeep, if_neg hk]

theorem length_foldl_stepKeep_le (keep : Bytes → Str → Bool) :
    ∀ (pairs : List (Bytes × Bytes)) (acc : List (Str × Str)),
      (pairs.foldl (stepKeep keep) acc).length ≤ acc.length + pairs.length := by
  intro pairs
  induction pairs with
  | nil => intro acc; simp
  | cons q rest ih =>
    intro acc
    rw [List.foldl_cons]
    calc (rest.foldl (stepKeep keep) (stepKeep keep acc q)).length
        ≤ (stepKeep keep acc q).length + rest.length := ih _
      _ ≤ acc.length + 1 + rest.length := by
          have : (stepKeep keep acc q).length ≤ acc.length + 1 := by
            by_cases hk : keep q.1 (pyDecodeReplace q.1)
            · rw [stepKeep, if_pos hk]; exact length_dictInsert_le _ _ _
            · rw [stepKeep, if_neg hk]; omega
          omega
      _ = acc.length + (q :: rest).length := by simp; omega

theorem length_normPairsAbort_le (lookup : Bytes → GetResult) :
    ∀ entries : List Entry, (normPairsAbort lookup entries).length ≤ entries.length := by
  intro entries
  induction entries with
  | nil => simp [normPairsAbort]
  | cons e rest ih =>
    cases hn : normalizeEntry lookup e with
    | none => simp [normPairsAbort, hn]
    | some o =>
      cases o with
      | none => simp [normPairsAbort, hn]; omega
      | some q => simp [normPairsAbort, hn]; omega

theorem normPairsAbort_eq_filterMap (lookup : Bytes → GetResult) :
    ∀ entries : List Entry, (∀ e ∈ entries, normalizeEntry lookup e ≠ none) →
      normPairsAbort lookup entries = entries.filterMap (normSome lookup) := by
  intro entries
  induction entries with
  | nil => intro _; simp [normPairsAbort]
  | cons e rest ih =>
    intro hnf
    have he := hnf e (List.mem_cons_self _ _)
    have hrest := fun e2 h2 => hnf e2 (List.mem_cons_of_mem _ h2)
    cases hn : normalizeEntry lookup e with
    | none => exact absurd hn he
    | some o =>
      cases o with
      | none => simp [normPairsAbort, hn, List.filterMap_cons, normSome, ih hrest]
      | some q => simp [normPairsAbort, hn, List.filterMap_cons, normSome, ih hrest]

theorem foldl_stepKeep_eq_append (keep : Bytes → Str → Bool) :
    ∀ (pairs : List (Bytes × Bytes)) (acc : List (Str × Str)),
      (pairs.map (fun q => pyDecodeReplace q.1)).Nodup →
      (∀ k ∈ acc.map Prod.fst, ∀ q ∈ pairs, pyDecodeReplace q.1 ≠ k) →
      pairs.foldl (stepKeep keep) acc =
        acc ++ (pairs.filter (fun q => keep q.1 (pyDecodeReplace q.1))).map decodePair := by
  intro pairs
  induction pairs with
  | nil => intro acc _ _; simp
  | cons q rest ih =>
    intro acc hnd hdisj
    rw [List.map_cons] at hnd
    have hq_not_rest : pyDecodeReplace q.1 ∉ rest.map (fun p => pyDecodeReplace p.1) :=
      (List.nodup_cons.1 hnd).1
    have hnd_rest : (rest.map (fun p => pyDecodeReplace p.1)).Nodup :=
      (List.nodup_cons.1 hnd).2
    rw [List.foldl_cons]
    by_cases hk : keep q.1 (pyDecodeReplace q.1)
    · have hq_not_acc : pyDecodeReplace q.1 ∉ acc.map Prod.fst := by
        intro hmem
        exact hdisj _ hmem q (List.mem_cons_self _ _) rfl
      have hstep : stepKeep keep acc q = acc ++ [decodePair q] := by
        rw [stepKeep, if_pos hk, dictInsert_notmem _ _ _ hq_not_acc]; rfl
      rw [hstep, ih (acc ++ [decodePair q]) hnd_rest ?disj]
      · rw [List.filter_cons, if_pos hk]
        simp
      case disj =>
        intro k hkmem p hp
        rcases List.mem_map.1 hkmem with ⟨x, hx, hkx⟩
        rcases List.mem_append.1 hx with hx1 | hx2
        · exact hdisj k (List.mem_map.2 ⟨x, hx1, hkx⟩) p (List.mem_cons_of_mem _ hp)
        · have hxq : x = decodePair q := by simpa using hx2
          subst hxq
          subst hkx
          intro hpq
          exact hq_not_rest (by
            rw [decodePair] at hpq
            exact List.mem_map.2 ⟨p, hp, hpq⟩)
    · have hstep : stepKeep keep acc q = acc := by rw [stepKeep, if_neg hk]
      rw [hstep, ih acc hnd_rest (fun k hkm p hp => hdisj k hkm p (List.mem_cons_of_mem _ hp))]
      rw [List.filter_cons, if_neg (by simpa using hk)]

/-!
## Sort and largest-value lemmas
-/

theorem mem_insertDesc (x z : Str × Nat) :
    ∀ l : List (Str × Nat), z ∈ insertDesc x l ↔ z = x ∨ z ∈ l := by
  intro l
  induction l with
  | nil => simp [insertDesc]
  | cons y ys ih =>
    by_cases h : y.2 ≤ x.2
    · simp [insertDesc, h]
    · simp [insertDesc, h, ih]
      tauto

theorem perm_insertDesc (x : Str × Nat) :
    ∀ l : List (Str × Nat), (insertDesc x l).Perm (x :: l) := by
  intro l
  induction l with
  | nil => simp [insertDesc]
  | cons y ys ih =>
    by_cases h : y.2 ≤ x.2
    · simp [insertDesc, h]
    · rw [insertDesc, if_neg h]
      exact (List.Perm.cons y ih).trans (List.Perm.swap x y ys)

theorem perm_sortDesc : ∀ l : List (Str × Nat), (sortDesc l).Perm l := by
  intro l
  induction l with
  | nil => simp [sortDesc]
  | cons x xs ih =>
    rw [sortDesc]
    exact (perm_insertDesc x (sortDesc xs)).trans (List.Perm.cons x ih)

theorem pairwise_insertDesc (x : Str × Nat) :
    ∀ l : List (Str × Nat), List.Pairwise (fun a b => b.2 ≤ a.2) l →
      List.Pairwise (fun a b => b.2 ≤ a.2) (insertDesc x l) := by
  intro l
  induction l with
  | nil => intro _; simp [insertDesc]
  | cons y ys ih =>
    intro hp
    rcases List.pairwise_cons.1 hp with ⟨hy, hys⟩
    by_cases h : y.2 ≤ x.2
    · rw [insertDesc, if_pos h]
      refine List.pairwise_cons.2 ⟨?_, hp⟩
      intro z hz
      rcases List.mem_cons.1 hz with rfl | hz2
      · exact h
      · exact le_trans (hy z hz2) h
    · rw [insertDesc, if_neg h]
      refine List.pairwise_cons.2 ⟨?_, ih hys⟩
      intro z hz
      rcases (mem_insertDesc x z ys).1 hz with rfl | hz2
      · omega
      · exact hy z hz2

theorem pairwise_sortDesc :
    ∀ l : List (Str × Nat), List.Pairwise (fun a b => b.2 ≤ a.2) (sortDesc l) := by
  intro l
  induction l with
  | nil => simp [sortDesc]
  | cons x xs ih => exact pairwise_insertDesc x (sortDesc xs) ih

theorem filter_insertDesc (x : Str × Nat) (n : Nat) :
    ∀ l : List (Str × Nat),
      (insertDesc x l).filter (fun q => decide (q.2 = n)) =
        if x.2 = n then x :: l.filter (fun q => decide (q.2 = n))
        else l.filter (fun q => decide (q.2 = n)) := by
  intro l
  induction l with
  | nil =>
    by_cases hx : x.2 = n
    · simp [insertDesc, hx]
    · simp [insertDesc, hx]
  | cons y ys ih =>
    by_cases h : y.2 ≤ x.2
    · rw [insertDesc, if_pos h]
      by_cases hx : x.2 = n
      · simp [List.filter_cons, hx]
      · simp [List.filter_cons, hx]
    · rw [insertDesc, if_neg h]
      by_cases hy : y.2 = n
      · have hx : ¬x.2 = n := by omega
        simp [List.filter_cons, hy, ih, hx]
      · simp [List.filter_cons, hy, ih]

theorem filter_sortDesc (n : Nat) :
    ∀ l : List (Str × Nat),
      (sortDesc l).filter (fun q => decide (q.2 = n)) =
        l.filter (fun q => decide (q.2 = n)) := by
  intro l
  induction l with
  | nil => simp [sortDesc]
  | cons x xs ih =>
    rw [sortDesc, filter_insertDesc, ih]
    by_cases hx : x.2 = n
    · simp [List.filter_cons, hx]
    · simp [List.filter_cons, hx]

theorem lvFold_lt (M : Nat) :
    ∀ (A : List (Str × Str)) (acc : Str × Nat), acc.2 < M →
      (∀ kv ∈ A, kv.2.length < M) → (A.foldl lvStep acc).2 < M := by
  intro A
  induction A with
  | nil => intro acc h _; simpa using h
  | cons kv rest ih =>
    intro acc hacc hA
    rw [List.foldl_cons]
    refine ih _ ?_ (fun p hp => hA p (List.mem_cons_of_mem _ hp))
    by_cases h : kv.2.length > acc.2
    · rw [lvStep, if_pos h]
      exact hA kv (List.mem_cons_self _ _)
    · rw [lvStep, if_neg h]
      exact hacc

theorem lvFold_fix :
    ∀ (B : List (Str × Str)) (acc : Str × Nat),
      (∀ kv ∈ B, kv.2.length ≤ acc.2) → B.foldl lvStep acc = acc := by
  intro B
  induction B with
  | nil => intro acc _; rfl
  | cons kv rest ih =>
    intro acc hB
    rw [List.foldl_cons]
    have h : ¬kv.2.length > acc.2 := by
      have := hB kv (List.mem_cons_self _ _)
      omega
    rw [lvStep, if_neg h]
    exact ih acc (fun p hp => hB p (List.mem_cons_of_mem _ hp))

/-!
## Clean-scan characterizations
-/

theorem stepKeep_true (acc : List (Str × Str)) (q : Bytes × Bytes) :
    stepKeep (fun _ _ => true) acc q =
      dictInsert acc (pyDecodeReplace q.1) (valueToStr q.2) := by
  simp [stepKeep]

theorem get_all_clean (s : Store) (entries : List Entry)
    (hscan : s.scan [] = Except.ok entries)
    (hnd : ((normPairsAbort s.lookup entries).map (fun q => pyDecodeReplace q.1)).Nodup) :
    get_all_transactions s = (normPairsAbort s.lookup entries).map decodePair := by
  simp only [get_all_transactions, hscan]
  rw [scanLoopGen_eq_foldl, foldl_stepKeep_eq_append _ _ _ hnd (by simp)]
  simp

theorem get_by_suffix_clean (s : Store) (entries : List Entry) (sfx : Str)
    (hscan : s.scan [] = Except.ok entries)
    (hnd : ((normPairsAbort s.lookup entries).map (fun q => pyDecodeReplace q.1)).Nodup) :
    get_by_suffix s sfx =
      ((normPairsAbort s.lookup entries).filter
        (fun q => (utf8Encode sfx).isSuffixOf q.1)).map decodePair := by
  simp only [get_by_suffix, hscan]
  rw [scanLoopGen_eq_foldl, foldl_stepKeep_eq_append _ _ _ hnd (by simp)]
  simp

theorem get_by_prefix_clean (s : Store) (pentries : List Entry) (p : Str)
    (hscan : s.scan (utf8Encode p) = Except.ok pentries)
    (hnd : ((normPairsAbort s.lookup pentries).map (fun q => pyDecodeReplace q.1)).Nodup) :
    get_by_prefix s p =
      ((normPairsAbort s.lookup pentries).filter
        (fun q => p.isPrefixOf (pyDecodeReplace q.1))).map decodePair := by
  simp only [ get_by_prefix, hscan]
  rw [scanLoopGen_eq_foldl, foldl_stepKeep_eq_append _ _ _ hnd (by simp)]
  simp

/-!
## The claims
-/

/-- Claim C1.  The claim says: a value whose bytes are not valid UTF-8 decodes
to a base64 string that base64-decodes back to the original bytes.  The
code instead decodes every value with `errors="replace"`, which is total
on bytes, so the `except` branch holding the base64 fallback is
unreachable: the byte string `[0xFF]` is not valid UTF-8, the code
renders it as the replacement character U+FFFD (not a base64 string, so
it does not base64-decode to `[0xFF]`), while the intended fallback
`base64.b64encode` would have produced the round-tripping string
`"/w=="`. -/
theorem claim_C1 :
    validUtf8 [0xFF] = false ∧
    valueToStr [0xFF] = [repl] ∧
    b64decodeOpt (valueToStr [0xFF]) = none ∧
    b64encode [0xFF] = ['/', 'w', '=', '='] ∧
    b64decodeOpt (b64encode [0xFF]) = some [0xFF] := by decide

/-- Claim C2, amended.  In `get_all_transactions`: (1) a total failure of the
scan call yields an empty TransactionSet and is not raised; (2) an entry
of unrecognized shape is skipped and scanning continues; (3) a faulting
per-entry value lookup aborts the remaining loop and the entries
accumulated so far are returned (the fault is not raised) — the loop does
NOT continue with the remaining entries in that case, because the
exception is caught only by the handler outside the loop. -/
theorem claim_C2 :
    (∀ (lookup : Bytes → GetResult) (msg : String),
      get_all_transactions ⟨fun _ => Except.error msg, lookup⟩ = []) ∧
    (∀ (lookup : Bytes → GetResult) (keep : Bytes → Str → Bool)
      (rest : List Entry) (acc : List (Str × Str)),
      scanLoopGen lookup keep (Entry.unknown :: rest) acc = scanLoopGen lookup keep rest acc) ∧
    (∀ (lookup : Bytes → GetResult) (keep : Bytes → Str → Bool)
      (kb : Bytes) (rest : List Entry) (acc : List (Str × Str)),
      lookup kb = GetResult.fault →
      scanLoopGen lookup keep (Entry.raw kb :: rest) acc = acc) := by
  refine ⟨fun lookup msg => rfl, fun lookup keep rest acc => rfl, ?_⟩
  intro lookup keep kb rest acc h
  simp [scanLoopGen, normalizeEntry, h]

/-- Witness for C2 at a concrete store: a failing scan yields the empty
dict; an unknown-shaped entry is skipped; a faulting bare-key lookup
returns just the accumulator. -/
theorem claim_C2_witness :
    get_all_transactions ⟨fun _ => Except.error (String.mk []), fun _ => GetResult.fault⟩ = [] ∧
    scanLoopGen (fun _ => GetResult.fault) (fun _ _ => true) [Entry.unknown] [] =
      scanLoopGen (fun _ => GetResult.fault) (fun _ _ => true) [] [] ∧
    scanLoopGen (fun _ => GetResult.fault) (fun _ _ => true)
      (Entry.raw [107] :: [Entry.tup [97] [98]]) [(['z'], ['w'])] = [(['z'], ['w'])] :=
  ⟨claim_C2.1 (fun _ => GetResult.fault) (String.mk []),
   claim_C2.2.1 (fun _ => GetResult.fault) (fun _ _ => true) [] [],
   claim_C2.2.2 (fun _ => GetResult.fault) (fun _ _ => true) [107] [Entry.tup [97] [98]]
     [(['z'], ['w'])] rfl⟩

/-- Counterexample to C2 as stated: in a store whose first scanned entry
is a bare key with a faulting lookup, the second (well-formed) entry is
NOT decoded — the result is empty, the loop did not continue with the
remaining entries. -/
theorem claim_C2_cex :
    get_all_transactions
      ⟨fun _ => Except.ok [Entry.raw [107], Entry.tup [97] [98]],
       fun _ => GetResult.fault⟩ = [] ∧
    (['a'], ['b']) ∉ get_all_transactions
      ⟨fun _ => Except.ok [Entry.raw [107], Entry.tup [97] [98]],
       fun _ => GetResult.fault⟩ := by decide

/-- Claim C6.  The candidate prefixes of a key have exactly the lengths
`1 .. min(4, len(key) - 1)`; every candidate is strictly shorter than the
key; the 8-character key `"block:22"` yields `"b"`, `"bl"`, `"blo"`,
`"bloc"`; a key of length 1 contributes no candidates. -/
theorem claim_C6 :
    (∀ key : Str, (prefixCandidates key).map List.length =
      List.range' 1 (min 4 (key.length - 1))) ∧
    (∀ key : Str, (prefixCandidates key).all (fun c => decide (c.length < key.length)) = true) ∧
    prefixCandidates ['b', 'l', 'o', 'c', 'k', ':', '2', '2'] =
      [['b'], ['b', 'l'], ['b', 'l', 'o'], ['b', 'l', 'o', 'c']] ∧
    (∀ c : Char, prefixCandidates [c] = []) := by
  have hlen : ∀ key : Str, (prefixCandidates key).map List.length =
      List.range' 1 (min 4 (key.length - 1)) := by
    intro key
    rw [prefixCandidates, List.map_map]
    have harg : min 5 key.length - 1 = min 4 (key.length - 1) := by omega
    rw [harg]
    have : ∀ i ∈ List.range' 1 (min 4 (key.length - 1)),
        (List.length ∘ fun i => key.take i) i = id i := by
      intro i hi
      rcases List.mem_range'.1 hi with ⟨j, hj, rfl⟩
      simp only [Function.comp_apply, List.length_take, id]
      omega
    rw [List.map_congr_left this, List.map_id]
  refine ⟨hlen, ?_, by decide, ?_⟩
  · intro key
    rw [List.all_eq_true]
    intro c hc
    have hmem : c.length ∈ (prefixCandidates key).map List.length := List.mem_map.2 ⟨c, hc, rfl⟩
    rw [hlen key] at hmem
    rcases List.mem_range'.1 hmem with ⟨j, hj, hcl⟩
    simp only [decide_eq_true_eq]
    omega
  · intro c
    rw [prefixCandidates]
    simp

/-- Claim C7, amended.  The largest-value field is computed in one pass that
replaces the current best only on a strict increase, so when the maximal
value length is positive, the first entry attaining it is reported even
when later entries tie.  (When every value is empty the sentinel
`{"key": "", "size": 0}` is reported instead of any entry; see the
counterexample.) -/
theorem claim_C7 (A B : List (Str × Str)) (k v : Str)
    (hpos : 0 < v.length)
    (hA : ∀ kv ∈ A, kv.2.length < v.length)
    (hB : ∀ kv ∈ B, kv.2.length ≤ v.length) :
    (get_transactions_stats (A ++ (k, v) :: B)).largest_value = (k, v.length) := by
  have hne : (A ++ (k, v) :: B).isEmpty = false := by simp
  simp only [get_transactions_stats, hne, Bool.false_eq_true, if_false]
  rw [largestValueFold, List.foldl_append, List.foldl_cons]
  have h1 : (A.foldl lvStep ([], 0)).2 < v.length := lvFold_lt _ A ([], 0) hpos hA
  rw [lvStep, if_pos h1]
  exact lvFold_fix B (k, v.length) hB

/-- Witness for C7: three entries with value lengths 0, 2, 2 — the first
entry attaining the maximum (the second entry) is reported despite the
later tie. -/
theorem claim_C7_witness :
    (get_transactions_stats
      [(['a'], []), (['b'], ['x', 'y']), (['c'], ['z', 'w'])]).largest_value = (['b'], 2) :=
  claim_C7 [(['a'], [])] [(['c'], ['z', 'w'])] ['b'] ['x', 'y']
    (by decide) (by decide) (by decide)

/-- Counterexample to C7 as stated: with two entries whose values are
both empty (so both share the maximal value length 0), the reported
largest value is the sentinel with the empty key, not the first entry
`"a"`. -/
theorem claim_C7_cex :
    (get_transactions_stats [(['a'], []), (['b'], [])]).largest_value = ([], 0) ∧
    (get_transactions_stats [(['a'], []), (['b'], [])]).largest_value ≠ (['a'], 0) := by
  refine ⟨rfl, ?_⟩
  intro h
  exact absurd (congrArg Prod.fst h) (by decide)

/-- Claim C8.  When the state query fails (for any failure), `get_merkle_root`
returns the summary with both `txId` and `merkleRoot` null, and (being a
total function of the query outcome) does not raise. -/
theorem claim_C8 (msg : String) :
    get_merkle_root (Except.error msg) = ⟨none, none⟩ := rfl

/-- Claim C9.  `get_by_suffix` with the empty suffix equals
`get_all_transactions` on every store: both issue the same unrestricted
scan, and the raw-key suffix check against the empty byte string always
passes. -/
theorem claim_C9 (s : Store) : get_by_suffix s [] = get_all_transactions s := by
  cases hscan : s.scan [] with
  | error e => simp [get_by_suffix, get_all_transactions, hscan]
  | ok entries =>
    simp only [get_by_suffix, get_all_transactions, hscan]
    exact scanLoopGen_congr s.lookup (fun kb _ => (utf8Encode []).isSuffixOf kb)
      (fun _ _ => true) (fun kb ks => by simp [utf8Encode, List.isSuffixOf]) entries []

/-- Claim C5.  The common-prefix list is the first five elements of the
stable descending sort of the accumulated prefix-frequency dict: it has
at most 5 pairs, it is sorted by frequency descending, and the sort is
stable over first-discovery order — the pairs of any fixed frequency
appear exactly in the order in which they sit in the accumulation dict,
whose order is first-discovery order. -/
theorem claim_C5 (ts : List (Str × Str)) :
    (get_transactions_stats ts).common_prefixes = (sortDesc (prefixCounts ts)).take 5 ∧
    (get_transactions_stats ts).common_prefixes.length ≤ 5 ∧
    List.Pairwise (fun a b => b.2 ≤ a.2) (get_transactions_stats ts).common_prefixes ∧
    (sortDesc (prefixCounts ts)).Perm (prefixCounts ts) ∧
    (∀ n, (sortDesc (prefixCounts ts)).filter (fun q => decide (q.2 = n)) =
      (prefixCounts ts).filter (fun q => decide (q.2 = n))) := by
  have hcp : (get_transactions_stats ts).common_prefixes = (sortDesc (prefixCounts ts)).take 5 := by
    by_cases h : ts.isEmpty
    · have h2 : ts = [] := List.isEmpty_iff.1 h
      subst h2
      rfl
    · simp [get_transactions_stats, h]
  refine ⟨hcp, ?_, ?_, perm_sortDesc _, fun n => filter_sortDesc n _⟩
  · rw [hcp, List.length_take]
    omega
  · rw [hcp]
    exact List.Pairwise.sublist (List.take_sublist _ _) (pairwise_sortDesc _)

/-- Claim C3, amended.  (a) Every key of ` get_by_prefix s p` starts with `p`
— for an arbitrary store response, i.e. even if the store ignores the
prefix restriction and returns a superset, because of the local
re-check.  (b) The returned mapping is a subset (as a set of pairs) of
`get_all_transactions` on the same store, provided the prefix scan
returns a subsequence of the full scan, no per-entry lookup faults, and
no two processed raw keys decode to the same string.  (Without the last
condition the subset claim fails, see the counterexample.) -/
theorem claim_C3 :
    (∀ (s : Store) (p k : Str),
      k ∈ ( get_by_prefix s p).map Prod.fst → p.isPrefixOf k = true) ∧
    (∀ (s : Store) (p : Str) (entries pentries : List Entry),
      s.scan [] = Except.ok entries →
      s.scan (utf8Encode p) = Except.ok pentries →
      pentries.Sublist entries →
      (∀ e ∈ entries, normalizeEntry s.lookup e ≠ none) →
      ((normPairsAbort s.lookup entries).map (fun q => pyDecodeReplace q.1)).Nodup →
      ∀ kv ∈ ( get_by_prefix s p), kv ∈ get_all_transactions s) := by
  constructor
  · intro s p k hk
    cases hscan : s.scan (utf8Encode p) with
    | error e =>
      simp only [ get_by_prefix, hscan] at hk
      simp at hk
    | ok es =>
      simp only [ get_by_prefix, hscan] at hk
      exact keys_scanLoopGen_prop s.lookup (fun _ ks => p.isPrefixOf ks)
        (fun k2 => p.isPrefixOf k2 = true) (fun kb h => h) es [] (by simp) k hk
  · intro s p entries pentries hscan0 hscanp hsub hnf hnd kv hkv
    have hnfp : ∀ e ∈ pentries, normalizeEntry s.lookup e ≠ none :=
      fun e he => hnf e (hsub.subset he)
    have hpairs := normPairsAbort_eq_filterMap s.lookup entries hnf
    have hpairsP := normPairsAbort_eq_filterMap s.lookup pentries hnfp
    have hsubP : (normPairsAbort s.lookup pentries).Sublist (normPairsAbort s.lookup entries) := by
      rw [hpairs, hpairsP]
      exact hsub.filterMap _
    have hndP : ((normPairsAbort s.lookup pentries).map (fun q => pyDecodeReplace q.1)).Nodup :=
      List.Nodup.sublist (hsubP.map _) hnd
    rw [get_by_prefix_clean s pentries p hscanp hndP] at hkv
    rcases List.mem_map.1 hkv with ⟨q, hqf, rfl⟩
    have hq2 : q ∈ normPairsAbort s.lookup entries :=
      hsubP.subset (List.mem_of_mem_filter hqf)
    rw [get_all_clean s entries hscan0 hnd]
    exact List.mem_map.2 ⟨q, hq2, rfl⟩

/-- Witness for C3 at a concrete store: the prefix result for `"a"` is
contained in the full result, and its key starts with `"a"`. -/
theorem claim_C3_witness :
    ['a'].isPrefixOf (['a', 'b'] : Str) = true ∧
    (['a', 'b'], ['c']) ∈ get_all_transactions
      ⟨fun q => if q = [0x61] then Except.ok [Entry.tup [0x61, 0x62] [0x63]]
        else Except.ok [Entry.tup [0x61, 0x62] [0x63], Entry.tup [0x64] [0x65]],
       fun _ => GetResult.fault⟩ :=
  ⟨claim_C3.1
    ⟨fun q => if q = [0x61] then Except.ok [Entry.tup [0x61, 0x62] [0x63]]
      else Except.ok [Entry.tup [0x61, 0x62] [0x63], Entry.tup [0x64] [0x65]],
     fun _ => GetResult.fault⟩ ['a'] ['a', 'b'] (by decide),
   claim_C3.2
    ⟨fun q => if q = [0x61] then Except.ok [Entry.tup [0x61, 0x62] [0x63]]
      else Except.ok [Entry.tup [0x61, 0x62] [0x63], Entry.tup [0x64] [0x65]],
     fun _ => GetResult.fault⟩ ['a']
    [Entry.tup [0x61, 0x62] [0x63], Entry.tup [0x64] [0x65]]
    [Entry.tup [0x61, 0x62] [0x63]]
    rfl rfl
    (List.Sublist.cons₂ _ (List.Sublist.cons _ (List.Sublist.refl [])))
    (by decide) (by decide)
    (['a', 'b'], ['c']) (by decide)⟩

/-- Counterexample to C3 as stated: with the colliding decoded keys of
`c3store`, the pair produced by the prefix scan is not a pair of the full
scan (the full scan maps the collided key to the later value), so the
prefix result is not a subset of `get_all_transactions`. -/
theorem claim_C3_cex :
    ([repl], ['a']) ∈ get_by_prefix c3store [repl] ∧
    ([repl], ['a']) ∉ get_all_transactions c3store := by decide

/-- Claim C4, amended.  `get_by_suffix` issues the unrestricted scan and, when
no two processed raw keys decode to the same string, its result is
exactly the decoded pairs of the processed entries whose raw key bytes
end with the UTF-8 encoding of the suffix (the check is on raw bytes,
before text decoding), and that result is a subset (as a set of pairs) of
`get_all_transactions` on the same store.  (Without the no-collision
condition the subset claim fails, see the counterexample.) -/
theorem claim_C4 (lookup : Bytes → GetResult) (entries : List Entry) (sfx : Str)
    (hnd : ((normPairsAbort lookup entries).map (fun q => pyDecodeReplace q.1)).Nodup) :
    get_by_suffix ⟨fun _ => Except.ok entries, lookup⟩ sfx =
      ((normPairsAbort lookup entries).filter
        (fun q => (utf8Encode sfx).isSuffixOf q.1)).map decodePair ∧
    ∀ kv ∈ get_by_suffix ⟨fun _ => Except.ok entries, lookup⟩ sfx,
      kv ∈ get_all_transactions ⟨fun _ => Except.ok entries, lookup⟩ := by
  have h1 := get_by_suffix_clean ⟨fun _ => Except.ok entries, lookup⟩ entries sfx rfl hnd
  refine ⟨h1, ?_⟩
  intro kv hkv
  rw [h1] at hkv
  rcases List.mem_map.1 hkv with ⟨q, hqf, rfl⟩
  rw [get_all_clean ⟨fun _ => Except.ok entries, lookup⟩ entries rfl hnd]
  exact List.mem_map.2 ⟨q, List.mem_of_mem_filter hqf, rfl⟩

/-- Witness for C4 at a concrete store: the suffix `"b"` keeps exactly
the entry with raw key `"ab"`, and that pair is in the full result. -/
theorem claim_C4_witness :
    get_by_suffix
      ⟨fun _ => Except.ok [Entry.tup [0x61, 0x62] [0x63], Entry.tup [0x64] [0x65]],
       fun _ => GetResult.fault⟩ ['b'] =
      ((normPairsAbort (fun _ => GetResult.fault)
        [Entry.tup [0x61, 0x62] [0x63], Entry.tup [0x64] [0x65]]).filter
        (fun q => (utf8Encode ['b']).isSuffixOf q.1)).map decodePair ∧
    (['a', 'b'], ['c']) ∈ get_all_transactions
      ⟨fun _ => Except.ok [Entry.tup [0x61, 0x62] [0x63], Entry.tup [0x64] [0x65]],
       fun _ => GetResult.fault⟩ :=
  ⟨(claim_C4 (fun _ => GetResult.fault)
      [Entry.tup [0x61, 0x62] [0x63], Entry.tup [0x64] [0x65]] ['b'] (by decide)).1,
   (claim_C4 (fun _ => GetResult.fault)
      [Entry.tup [0x61, 0x62] [0x63], Entry.tup [0x64] [0x65]] ['b'] (by decide)).2
     (['a', 'b'], ['c']) (by decide)⟩

/-- Counterexample to C4 as stated: in `c4store` the raw keys `EF BF BD`
and `FF` decode to the same string; the suffix filter for U+FFFD keeps
only the first, so the suffix result maps the key to the first value
while the full scan maps it to the second — not a subset. -/
theorem claim_C4_cex :
    ([repl], ['a']) ∈ get_by_suffix c4store [repl] ∧
    ([repl], ['a']) ∉ get_all_transactions c4store := by decide

/-- Claim C10.  When two distinct raw keys among the processed scan entries
decode (with replacement) to the same string, and no other processed
entry shares that decoded key, the returned TransactionSet maps that
string to the decoded value of the later-scanned of the two entries, and
the TransactionSet has fewer entries than the store returned. -/
theorem claim_C10 (lookup : Bytes → GetResult) (entries : List Entry)
    (A B C : List (Bytes × Bytes)) (ki vi kj vj : Bytes)
    (hdec : normPairsAbort lookup entries = A ++ (ki, vi) :: (B ++ (kj, vj) :: C))
    (hkne : ki ≠ kj)
    (hdk : pyDecodeReplace ki = pyDecodeReplace kj)
    (hothers : ∀ q ∈ A ++ B ++ C, pyDecodeReplace q.1 ≠ pyDecodeReplace ki) :
    getVal (get_all_transactions ⟨fun _ => Except.ok entries, lookup⟩) (pyDecodeReplace ki)
      = some (valueToStr vj) ∧
    (get_all_transactions ⟨fun _ => Except.ok entries, lookup⟩).length < entries.length := by
  have hA : ∀ q ∈ A, pyDecodeReplace q.1 ≠ pyDecodeReplace ki := fun q hq =>
    hothers q (List.mem_append_left _ (List.mem_append_left _ hq))
  have hB : ∀ q ∈ B, pyDecodeReplace q.1 ≠ pyDecodeReplace ki := fun q hq =>
    hothers q (List.mem_append_left _ (List.mem_append_right _ hq))
  have hC : ∀ q ∈ C, pyDecodeReplace q.1 ≠ pyDecodeReplace ki := fun q hq =>
    hothers q (List.mem_append_right _ hq)
  have hget : get_all_transactions ⟨fun _ => Except.ok entries, lookup⟩ =
      (normPairsAbort lookup entries).foldl (stepKeep (fun _ _ => true)) [] := by
    simp only [get_all_transactions]
    exact scanLoopGen_eq_foldl lookup _ entries []
  rw [hget, hdec, List.foldl_append, List.foldl_cons, List.foldl_append, List.foldl_cons]
  set accA := A.foldl (stepKeep (fun _ _ => true)) ([] : List (Str × Str)) with haccA
  rw [stepKeep_true, stepKeep_true]
  set acc2 := dictInsert accA (pyDecodeReplace ki) (valueToStr vi) with hacc2
  set acc3 := B.foldl (stepKeep (fun _ _ => true)) acc2 with hacc3
  have hval3 : getVal acc3 (pyDecodeReplace ki) = some (valueToStr vi) := by
    rw [hacc3, getVal_foldl_stepKeep_of_ne _ B acc2 _ hB, hacc2, getVal_dictInsert_self]
  set acc4 := dictInsert acc3 (pyDecodeReplace kj) (valueToStr vj) with hacc4
  have hval4 : getVal acc4 (pyDecodeReplace ki) = some (valueToStr vj) := by
    rw [hacc4, ← hdk, getVal_dictInsert_self]
  constructor
  · rw [getVal_foldl_stepKeep_of_ne _ C acc4 _ hC]
    exact hval4
  · have l1 : accA.length ≤ A.length := by
      simpa using length_foldl_stepKeep_le (fun _ _ => true) A []
    have l2 : acc2.length ≤ accA.length + 1 := by
      rw [hacc2]; exact length_dictInsert_le _ _ _
    have l3 : acc3.length ≤ acc2.length + B.length := length_foldl_stepKeep_le _ B acc2
    have lmem : pyDecodeReplace kj ∈ acc3.map Prod.fst := by
      rw [← hdk]
      exact mem_keys_of_getVal acc3 _ _ hval3
    have l4 : acc4.length = acc3.length := by
      rw [hacc4]; exact length_dictInsert_mem _ _ _ lmem
    have l5 : (C.foldl (stepKeep (fun _ _ => true)) acc4).length ≤ acc4.length + C.length :=
      length_foldl_stepKeep_le _ C acc4
    have lpairs : (normPairsAbort lookup entries).length ≤ entries.length :=
      length_normPairsAbort_le lookup entries
    rw [hdec] at lpairs
    simp only [List.length_append, List.length_cons] at lpairs
    omega

/-- Witness for C10: a concrete scan whose raw keys `EF BF BD` and `FF`
both decode to U+FFFD — the dict maps the collided key to the second
value and has one entry where the store returned two. -/
theorem claim_C10_witness :
    getVal (get_all_transactions
      ⟨fun _ => Except.ok [Entry.tup [0xEF, 0xBF, 0xBD] [0x61], Entry.tup [0xFF] [0x62]],
       fun _ => GetResult.fault⟩) (pyDecodeReplace [0xEF, 0xBF, 0xBD])
      = some (valueToStr [0x62]) ∧
    (get_all_transactions
      ⟨fun _ => Except.ok [Entry.tup [0xEF, 0xBF, 0xBD] [0x61], Entry.tup [0xFF] [0x62]],
       fun _ => GetResult.fault⟩).length <
      ([Entry.tup [0xEF, 0xBF, 0xBD] [0x61], Entry.tup [0xFF] [0x62]] : List Entry).length :=
  claim_C10 (fun _ => GetResult.fault)
    [Entry.tup [0xEF, 0xBF, 0xBD] [0x61], Entry.tup [0xFF] [0x62]]
    [] [] [] [0xEF, 0xBF, 0xBD] [0x61] [0xFF] [0x62]
    (by decide) (by decide) (by decide) (by decide)
